import Mathlib

/-!
Verification of the gentle-pong sound-pack synthesizer.

This file gives a shallow embedding of the core signal-processing and
synthesis code of the repository (src/dsp.py, src/synth.py, src/generate.py)
and proves or refutes the frozen specification claims about it.

Modelling conventions:
* Python floats are idealized as exact arithmetic.  Operations whose control
  flow depends only on comparisons and max/min (normalize, trim_silence,
  to_int16) are embedded over ℚ, so that they are fully executable; the
  transcendental parts (oscillators, lowpass, reverb, fade_out) are embedded
  over ℝ.
* Python `int(x)` on a non-negative value is truncation = floor; for natural
  arguments `int(a * b / 1000)` is embedded as natural division `a * b / 1000`.
* Python code that raises an exception (max() of an empty sequence, division
  by zero, indexing an empty list) is embedded as an `Option`-valued function
  returning `none` in exactly the raising cases.
-/

namespace GentlePong

/-- Embeds Python `max(xs)`: `none` on the empty list (Python raises
`ValueError` there), otherwise the maximum. -/
def pyMax : List ℚ → Option ℚ
  | [] => none
  | x :: xs => some (xs.foldl max x)

/-- Embeds `dsp.normalize(samples, peak)`:
`mx = max(abs(s) for s in samples) or 1.0` (the `or 1.0` replaces a 0.0
maximum by 1.0; on an empty buffer `max` raises, embedded as `none`);
if `mx > peak` every sample is scaled by `peak/mx`, else the buffer is
returned unchanged. -/
def normalize (samples : List ℚ) (peak : ℚ) : Option (List ℚ) :=
  match pyMax (samples.map fun s => |s|) with
  | none => none
  | some m =>
      let mx := if m = 0 then 1 else m
      some (if peak < mx then samples.map fun s => s * peak / mx else samples)

/-- Embeds the Python slice `out[-chunk:]` as used in `dsp.trim_silence`:
for `chunk = 0` the slice `out[-0:]` is the whole list, otherwise it is the
final `chunk` elements (clamped). -/
def lastChunk (out : List ℚ) (chunk : ℕ) : List ℚ :=
  if chunk = 0 then out else out.drop (out.length - chunk)

/-- Embeds the Python slice `out[:-chunk]` as used in `dsp.trim_silence`:
for `chunk = 0` the slice `out[:-0]` is `out[:0] = []`, otherwise everything
but the final `chunk` elements. -/
def dropLastChunk (out : List ℚ) (chunk : ℕ) : List ℚ :=
  if chunk = 0 then [] else out.take (out.length - chunk)

/-- Embeds the `while` loop of `dsp.trim_silence`: while
`len(out) > chunk and all(abs(s) < threshold for s in out[-chunk:])`,
drop the trailing chunk. -/
def trimLoop (threshold : ℚ) (chunk : ℕ) (out : List ℚ) : List ℚ :=
  if _h : chunk < out.length ∧ ∀ x ∈ lastChunk out chunk, |x| < threshold then
    trimLoop threshold chunk (dropLastChunk out chunk)
  else out
termination_by out.length
decreasing_by
  simp only [dropLastChunk]
  by_cases hc : chunk = 0
  · simp only [hc, if_true, List.length_nil]
    omega
  · simp only [hc, if_false, List.length_take]
    omega

/-- Embeds `dsp.trim_silence(samples, threshold, chunk)`. -/
def trim_silence (samples : List ℚ) (threshold : ℚ) (chunk : ℕ) : List ℚ :=
  trimLoop threshold chunk samples

/-- Embeds Python `int(q)` (truncation toward zero) on a rational. -/
def pyTrunc (q : ℚ) : ℤ :=
  if q < 0 then ⌈q⌉ else ⌊q⌋

/-- Embeds the per-sample body of `dsp.to_int16`:
`int(max(-1.0, min(1.0, s)) * 32767)`. -/
def toInt16Sample (s : ℚ) : ℤ :=
  pyTrunc (max (-1) (min 1 s) * 32767)

/-- Embeds `dsp.to_int16(samples)`. -/
def to_int16 (samples : List ℚ) : List ℤ :=
  samples.map toInt16Sample

/-- Embeds `synth._note_fadeout(i, frames)`: a half-cosine fade over the
final 15% of the frames.  `fade_start = int(frames * 0.85)` is embedded as
`frames * 85 / 100` (natural division). -/
noncomputable def note_fadeout (i frames : ℕ) : ℝ :=
  let fade_start := frames * 85 / 100
  if i ≥ fade_start then
    0.5 * (1 + Real.cos (Real.pi * ((i - fade_start : ℕ) : ℝ) / ((frames - fade_start : ℕ) : ℝ)))
  else 1.0

/-- Embeds `synth.glockenspiel(freq, duration_ms, volume, sr)`: four partials
`(ratio, amp)` = (1.0, 1.0), (2.76, 0.45), (5.4, 0.20), (8.93, 0.08) with
decay rates 4, 6, 10, 16, a linear attack over `int(sr * 0.002)` frames, and
the shared note fadeout. -/
noncomputable def glockenspiel (freq : ℝ) (duration_ms : ℕ) (volume : ℝ) (sr : ℕ) : List ℝ :=
  let frames := sr * duration_ms / 1000
  let attack_frames := sr * 2 / 1000
  List.ofFn fun i : Fin frames =>
    let t : ℝ := ((i : ℕ) : ℝ) / (sr : ℝ)
    let s : ℝ :=
      1.0 * Real.sin (2 * Real.pi * freq * 1.0 * t) * Real.exp (-(4.0) * t)
      + 0.45 * Real.sin (2 * Real.pi * freq * 2.76 * t) * Real.exp (-(6.0) * t)
      + 0.20 * Real.sin (2 * Real.pi * freq * 5.4 * t) * Real.exp (-(10.0) * t)
      + 0.08 * Real.sin (2 * Real.pi * freq * 8.93 * t) * Real.exp (-(16.0) * t)
    let s := if (i : ℕ) < attack_frames then s * (((i : ℕ) : ℝ) / (attack_frames : ℝ)) else s
    s * volume * note_fadeout i frames

/-- Embeds `synth.sine_tone(freq, duration_ms, volume, fade_ms, sr)`: a pure
sine with linear fade-in over the first `fade_frames` samples and linear
fade-out over the samples with index `i > frames - fade_frames` (the
difference `frames - fade_frames` is a Python `int`, so it is taken in ℤ). -/
noncomputable def sine_tone (freq : ℝ) (duration_ms : ℕ) (volume : ℝ) (fade_ms : ℕ) (sr : ℕ) : List ℝ :=
  let frames := sr * duration_ms / 1000
  let fade_frames := sr * fade_ms / 1000
  List.ofFn fun i : Fin frames =>
    let t : ℝ := ((i : ℕ) : ℝ) / (sr : ℝ)
    let s : ℝ := Real.sin (2 * Real.pi * freq * t) * volume
    let s := if (i : ℕ) < fade_frames then s * (((i : ℕ) : ℝ) / (fade_frames : ℝ)) else s
    if ((i : ℕ) : ℤ) > (frames : ℤ) - (fade_frames : ℤ) then
      s * ((((frames : ℤ) - ((i : ℕ) : ℤ) : ℤ) : ℝ) / (fade_frames : ℝ))
    else s

/-- Embeds `synth.marimba(freq, duration_ms, volume, sr)`: three partials
(1.0, 1.0), (4.0, 0.30), (9.2, 0.08) with decay rates 3.5, 7, 14, a linear
attack over `int(sr * 0.004)` frames, and the shared note fadeout. -/
noncomputable def marimba (freq : ℝ) (duration_ms : ℕ) (volume : ℝ) (sr : ℕ) : List ℝ :=
  let frames := sr * duration_ms / 1000
  let attack_frames := sr * 4 / 1000
  List.ofFn fun i : Fin frames =>
    let t : ℝ := ((i : ℕ) : ℝ) / (sr : ℝ)
    let s : ℝ :=
      1.0 * Real.sin (2 * Real.pi * freq * 1.0 * t) * Real.exp (-(3.5) * t)
      + 0.30 * Real.sin (2 * Real.pi * freq * 4.0 * t) * Real.exp (-(7.0) * t)
      + 0.08 * Real.sin (2 * Real.pi * freq * 9.2 * t) * Real.exp (-(14.0) * t)
    let s := if (i : ℕ) < attack_frames then s * (((i : ℕ) : ℝ) / (attack_frames : ℝ)) else s
    s * volume * note_fadeout i frames

/-- Embeds `synth.ambient(freq, duration_ms, volume, sr)`: two voices detuned
by ±1.5 Hz plus a quiet octave, exponential decay at rate 0.5, a half-cosine
attack over `int(sr * 120 / 1000)` frames, and an inline half-cosine fadeout
over the last 15% of the frames. -/
noncomputable def ambient (freq : ℝ) (duration_ms : ℕ) (volume : ℝ) (sr : ℕ) : List ℝ :=
  let frames := sr * duration_ms / 1000
  let attack_frames := sr * 120 / 1000
  let fade_start := frames * 85 / 100
  let fade_len := frames - fade_start
  List.ofFn fun i : Fin frames =>
    let t : ℝ := ((i : ℕ) : ℝ) / (sr : ℝ)
    let env : ℝ := Real.exp (-(0.5) * t)
    let env := if (i : ℕ) < attack_frames then
      env * (0.5 * (1 - Real.cos (Real.pi * ((i : ℕ) : ℝ) / (attack_frames : ℝ)))) else env
    let env := if (i : ℕ) ≥ fade_start then
      env * (0.5 * (1 + Real.cos (Real.pi * (((i : ℕ) - fade_start : ℕ) : ℝ) / (fade_len : ℝ)))) else env
    let s : ℝ :=
      0.5 * Real.sin (2 * Real.pi * (freq - 1.5) * t)
      + 0.5 * Real.sin (2 * Real.pi * (freq + 1.5) * t)
      + 0.12 * Real.sin (2 * Real.pi * (freq * 2.0) * t)
    s * env * volume

/-- Embeds `synth.bowl(freq, duration_ms, volume, sr)`: four partials
(1.0, 1.0, 1.2), (2.0, 0.35, 1.8), (3.01, 0.15, 2.5), (4.98, 0.06, 3.5) each
modulated by a 4.1 Hz wobble, a half-cosine attack over `int(sr * 80 / 1000)`
frames, and the shared note fadeout. -/
noncomputable def bowl (freq : ℝ) (duration_ms : ℕ) (volume : ℝ) (sr : ℕ) : List ℝ :=
  let frames := sr * duration_ms / 1000
  let attack_frames := sr * 80 / 1000
  List.ofFn fun i : Fin frames =>
    let t : ℝ := ((i : ℕ) : ℝ) / (sr : ℝ)
    let att : ℝ := if (i : ℕ) < attack_frames then
      0.5 * (1 - Real.cos (Real.pi * ((i : ℕ) : ℝ) / (attack_frames : ℝ))) else 1.0
    let mod : ℝ := 1.0 + 0.06 * Real.sin (2 * Real.pi * 4.1 * t)
    let s : ℝ :=
      1.0 * Real.sin (2 * Real.pi * freq * 1.0 * t) * Real.exp (-(1.2) * t) * mod
      + 0.35 * Real.sin (2 * Real.pi * freq * 2.0 * t) * Real.exp (-(1.8) * t) * mod
      + 0.15 * Real.sin (2 * Real.pi * freq * 3.01 * t) * Real.exp (-(2.5) * t) * mod
      + 0.06 * Real.sin (2 * Real.pi * freq * 4.98 * t) * Real.exp (-(3.5) * t) * mod
    s * att * volume * note_fadeout i frames

/-- Tail of one stage of `dsp.lowpass`: given the previous output sample
`prev`, maps the remaining inputs through
`out[i] = out[i-1] + alpha * (buf[i] - out[i-1])`. -/
noncomputable def lowpassStageGo (alpha : ℝ) (prev : ℝ) : List ℝ → List ℝ
  | [] => []
  | x :: xs => (prev + alpha * (x - prev)) :: lowpassStageGo alpha (prev + alpha * (x - prev)) xs

/-- One stage of `dsp.lowpass`: `out[0] = buf[0] * alpha`, then the
first-order recursion of `lowpassStageGo`. -/
noncomputable def lowpassStage (alpha : ℝ) : List ℝ → List ℝ
  | [] => []
  | b :: bs => b * alpha :: lowpassStageGo alpha (b * alpha) bs

/-- Embeds `dsp.lowpass(samples, cutoff_hz, sr, poles)`:
`rc = 1/(2*pi*cutoff_hz)`, `dt = 1/sr`, `alpha = dt/(rc+dt)`, and the
one-pole stage iterated `poles` times.  Returns `none` exactly where Python
raises: `cutoff_hz = 0` or `sr = 0` (ZeroDivisionError), or a run of at
least one stage over an empty buffer (`out[0] = buf[0] * alpha` raises
IndexError).  The remaining Python division `dt / (rc + dt)` cannot raise
for a rational cutoff and a natural sample rate: `rc + dt = 0` would force
`pi = -sr / (2 * cutoff_hz)`, contradicting the irrationality of pi. -/
noncomputable def lowpass (samples : List ℝ) (cutoff_hz : ℚ) (sr : ℕ) (poles : ℕ) : Option (List ℝ) :=
  if cutoff_hz = 0 ∨ sr = 0 then none
  else if 1 ≤ poles ∧ samples = [] then none
  else
    let rc : ℝ := 1 / (2 * Real.pi * (cutoff_hz : ℝ))
    let dt : ℝ := 1 / (sr : ℝ)
    let alpha : ℝ := dt / (rc + dt)
    some ((lowpassStage alpha)^[poles] samples)

/-- Embeds the Python idiom `for i, s in enumerate(xs): out[i + off] += s`
used by `dsp.reverb` and `generate.gen_chord`: adds `xs` into `out` starting
at offset `off`.  (At every call site in the embedded code `off + xs.length`
is at most `out.length`, so the Python loop never raises IndexError and this
total embedding agrees with it.) -/
noncomputable def addInto (out : List ℝ) (off : ℕ) (xs : List ℝ) : List ℝ :=
  List.ofFn fun j : Fin out.length =>
    out.get j + if off ≤ (j : ℕ) then xs.getD ((j : ℕ) - off) 0 else 0

/-- Embeds `dsp.reverb(samples, sr, decay, delays_ms, tail_s)`:
output of length `len(samples) + int(sr * max(delays_ms) / 1000) +
int(sr * tail_s)`, the dry signal at offset 0, and for each tap `d_ms` the
input scaled by `decay ** (d_ms / delays_ms[0])` added at offset
`int(sr * d_ms / 1000)`.  (`max` of the empty list raises in Python; here
the claims only concern non-empty delay lists, for which `foldl max 0`
agrees with Python `max` since the delays are naturals.) -/
noncomputable def reverb (samples : List ℝ) (sr : ℕ) (decay : ℝ) (delays_ms : List ℕ) (tail_s : ℚ) : List ℝ :=
  let max_delay := sr * (delays_ms.foldl max 0) / 1000
  let out_len := samples.length + max_delay + (⌊(sr : ℚ) * tail_s⌋).toNat
  let dry := addInto (List.replicate out_len 0) 0 samples
  delays_ms.foldl
    (fun acc d_ms =>
      addInto acc (sr * d_ms / 1000)
        (samples.map fun s => s * decay ^ (((d_ms : ℕ) : ℝ) / ((delays_ms.headD 0 : ℕ) : ℝ))))
    dry

/-- Embeds `dsp.fade_out(samples, fade_ms, sr)`: a half-cosine fade over the
final `min(int(sr * fade_ms / 1000), len(samples))` samples, then 50 ms of
exact-zero padding (`int(sr * 0.05)` frames) prepended and appended. -/
noncomputable def fade_out (samples : List ℝ) (fade_ms : ℕ) (sr : ℕ) : List ℝ :=
  let pad : List ℝ := List.replicate (sr * 5 / 100) 0
  let fade_frames := min (sr * fade_ms / 1000) samples.length
  let start := samples.length - fade_frames
  let out := List.ofFn fun j : Fin samples.length =>
    if (j : ℕ) ≥ start then
      samples.get j * (0.5 * (1 + Real.cos (Real.pi * (((j : ℕ) - start : ℕ) : ℝ) / (fade_frames : ℝ))))
    else samples.get j
  pad ++ out ++ pad

/-- Embeds the mixing portion of `generate.gen_chord`: each frequency is
synthesized at volume `volume / len(freqs)`, and the voices are summed into
a buffer of length `max(len(v) for v in voices)`.  (Python `max` raises on
an empty voice list; the claims only concern at least one frequency, for
which `foldl max 0` agrees with it.) -/
noncomputable def gen_chord_mixed (synth : ℝ → ℕ → ℝ → ℕ → List ℝ)
    (freqs : List ℝ) (duration_ms : ℕ) (volume : ℝ) (sr : ℕ) : List ℝ :=
  let per_voice := volume / ((freqs.length : ℕ) : ℝ)
  let voices := freqs.map fun f => synth f duration_ms per_voice sr
  let max_len := (voices.map List.length).foldl max 0
  voices.foldl (fun acc v => addInto acc 0 v) (List.replicate max_len 0)

/-! ### Helper lemmas -/

lemma getD_lt_eq {α : Type} (l : List α) (d : α) {j : ℕ} (h : j < l.length) :
    l.getD j d = l[j] := by
  rw [List.getD_eq_getElem?_getD, List.getElem?_eq_getElem h, Option.getD_some]

lemma length_addInto (out : List ℝ) (off : ℕ) (xs : List ℝ) :
    (addInto out off xs).length = out.length := by
  simp [addInto]

lemma getD_addInto (out : List ℝ) (off : ℕ) (xs : List ℝ) {j : ℕ} (h : j < out.length) :
    (addInto out off xs).getD j 0
      = out.getD j 0 + if off ≤ j then xs.getD (j - off) 0 else 0 := by
  have h' : j < (addInto out off xs).length := by rwa [length_addInto]
  rw [getD_lt_eq _ _ h', getD_lt_eq _ _ h]
  simp only [addInto, List.getElem_ofFn, List.get_eq_getElem]

lemma length_foldl_addInto {β : Type} (g : β → ℕ) (hf : β → List ℝ)
    (l : List β) (init : List ℝ) :
    (l.foldl (fun acc b => addInto acc (g b) (hf b)) init).length = init.length := by
  induction l generalizing init with
  | nil => rfl
  | cons b l ih => rw [List.foldl_cons, ih, length_addInto]

lemma getD_foldl_addInto {β : Type} (g : β → ℕ) (hf : β → List ℝ)
    (l : List β) (init : List ℝ) {j : ℕ} (h : j < init.length) :
    (l.foldl (fun acc b => addInto acc (g b) (hf b)) init).getD j 0
      = init.getD j 0
        + (l.map fun b => if g b ≤ j then (hf b).getD (j - g b) 0 else 0).sum := by
  induction l generalizing init with
  | nil => simp
  | cons b l ih =>
    rw [List.foldl_cons, ih _ (by rwa [length_addInto]), getD_addInto _ _ _ h]
    simp only [List.map_cons, List.sum_cons]
    ring

lemma getD_map_mul (xs : List ℝ) (a : ℝ) (k : ℕ) :
    (xs.map fun s => s * a).getD k 0 = xs.getD k 0 * a := by
  induction xs generalizing k with
  | nil => simp
  | cons x xs ih =>
    cases k with
    | zero => simp
    | succ k => simpa using ih k

lemma le_foldl_max {α : Type} [LinearOrder α] (l : List α) (b : α) : b ≤ l.foldl max b := by
  induction l generalizing b with
  | nil => exact le_rfl
  | cons x l ih => exact le_trans (le_max_left b x) (ih (max b x))

lemma mem_le_foldl_max {α : Type} [LinearOrder α] {l : List α} {x : α} (hx : x ∈ l) (b : α) :
    x ≤ l.foldl max b := by
  induction l generalizing b with
  | nil => cases hx
  | cons y l ih =>
    rw [List.foldl_cons]
    rcases List.mem_cons.mp hx with rfl | hx'
    · exact le_trans (le_max_right b x) (le_foldl_max l (max b x))
    · exact ih hx' (max b y)

lemma foldl_max_mem {α : Type} [LinearOrder α] (l : List α) (b : α) :
    l.foldl max b = b ∨ l.foldl max b ∈ l := by
  induction l generalizing b with
  | nil => exact Or.inl rfl
  | cons x l ih =>
    rw [List.foldl_cons]
    rcases ih (max b x) with h | h
    · rcases max_choice b x with h2 | h2
      · exact Or.inl (h.trans h2)
      · exact Or.inr (by rw [h, h2]; exact List.mem_cons_self x l)
    · exact Or.inr (List.mem_cons_of_mem x h)

lemma length_lowpassStageGo (alpha : ℝ) (p : ℝ) (xs : List ℝ) :
    (lowpassStageGo alpha p xs).length = xs.length := by
  induction xs generalizing p with
  | nil => rfl
  | cons x xs ih => simp [lowpassStageGo, ih]

lemma length_lowpassStage (alpha : ℝ) (l : List ℝ) :
    (lowpassStage alpha l).length = l.length := by
  cases l with
  | nil => rfl
  | cons b bs => simp [lowpassStage, length_lowpassStageGo]

lemma length_iterate_lowpassStage (alpha : ℝ) (n : ℕ) (l : List ℝ) :
    ((lowpassStage alpha)^[n] l).length = l.length := by
  induction n generalizing l with
  | zero => rfl
  | succ n ih => rw [Function.iterate_succ_apply, ih, length_lowpassStage]

lemma lowpassStageGo_getD_succ (alpha : ℝ) (xs : List ℝ) (p : ℝ) (i : ℕ)
    (h : i + 1 < xs.length) :
    (lowpassStageGo alpha p xs).getD (i + 1) 0
      = (lowpassStageGo alpha p xs).getD i 0
        + alpha * (xs.getD (i + 1) 0 - (lowpassStageGo alpha p xs).getD i 0) := by
  induction xs generalizing p i with
  | nil => simp at h
  | cons x xs ih =>
    cases i with
    | zero =>
      cases xs with
      | nil => simp at h
      | cons y t => simp [lowpassStageGo]
    | succ i =>
      have h' : i + 1 < xs.length := by simpa using h
      simpa [lowpassStageGo] using ih (p + alpha * (x - p)) i h'

lemma lowpassStage_getD_zero (alpha b : ℝ) (bs : List ℝ) :
    (lowpassStage alpha (b :: bs)).getD 0 0 = b * alpha := rfl

lemma lowpassStage_getD_succ (alpha : ℝ) (l : List ℝ) (i : ℕ) (h : i + 1 < l.length) :
    (lowpassStage alpha l).getD (i + 1) 0
      = (lowpassStage alpha l).getD i 0
        + alpha * (l.getD (i + 1) 0 - (lowpassStage alpha l).getD i 0) := by
  cases l with
  | nil => simp at h
  | cons b bs =>
    cases i with
    | zero =>
      cases bs with
      | nil => simp at h
      | cons y t => simp [lowpassStage, lowpassStageGo]
    | succ i =>
      have h' : i + 1 < bs.length := by simpa using h
      simpa [lowpassStage] using lowpassStageGo_getD_succ alpha bs (b * alpha) i h'

lemma trimLoop_props (th : ℚ) (c : ℕ) :
    ∀ (n : ℕ) (out : List ℚ), out.length ≤ n →
      trimLoop th c out = out.take (trimLoop th c out).length
      ∧ (∀ x ∈ out.drop (trimLoop th c out).length, |x| < th)
      ∧ trimLoop th c (trimLoop th c out) = trimLoop th c out := by
  intro n
  induction n with
  | zero =>
    intro out hlen
    have hout : out = [] := by
      cases out with
      | nil => rfl
      | cons a l => simp at hlen
    subst hout
    have h0 : trimLoop th c [] = [] := by
      rw [trimLoop]
      simp
    refine ⟨?_, ?_, ?_⟩ <;> simp [h0]
  | succ n ih =>
    intro out hlen
    by_cases hg : c < out.length ∧ ∀ x ∈ lastChunk out c, |x| < th
    · have hstep : trimLoop th c out = trimLoop th c (dropLastChunk out c) := by
        rw [trimLoop]
        rw [dif_pos hg]
      set k := if c = 0 then 0 else out.length - c with hkdef
      have hk : dropLastChunk out c = out.take k := by
        by_cases hc : c = 0 <;> simp [dropLastChunk, hc, hkdef]
      have hkle : k ≤ out.length := by
        by_cases hc : c = 0 <;> simp [hkdef, hc]
      have hklen : (dropLastChunk out c).length = k := by
        rw [hk, List.length_take]
        omega
      have hklt : k < out.length := by
        rcases hg with ⟨hg1, _⟩
        by_cases hc : c = 0
        · simp [hkdef, hc]; omega
        · simp [hkdef, hc]; omega
      have hdropk : ∀ x ∈ out.drop k, |x| < th := by
        rcases hg with ⟨hg1, hg2⟩
        by_cases hc : c = 0
        · intro x hx
          exact hg2 x (by simpa [lastChunk, hc, hkdef] using hx)
        · intro x hx
          exact hg2 x (by simpa [lastChunk, hc, hkdef] using hx)
      have hlen' : (dropLastChunk out c).length ≤ n := by omega
      obtain ⟨ha, hb, hc'⟩ := ih (dropLastChunk out c) hlen'
      set r := trimLoop th c (dropLastChunk out c) with hrdef
      rw [hk] at ha hb
      have htk : (out.take k).length = k := by
        rw [List.length_take]
        omega
      have hrlen : r.length ≤ k := by
        have := congrArg List.length ha
        rw [List.length_take, htk] at this
        omega
      refine ⟨?_, ?_, ?_⟩
      · rw [hstep]
        calc r = (out.take k).take r.length := ha
          _ = out.take (min r.length k) := by rw [List.take_take]
          _ = out.take r.length := by rw [min_eq_left hrlen]
      · rw [hstep]
        intro x hx
        have hsplit : out.drop r.length = (out.take k).drop r.length ++ out.drop k := by
          conv_lhs => rw [← List.take_append_drop k out]
          rw [List.drop_append_eq_append_drop]
          have hlt : (List.take k out).length = k := by
            rw [List.length_take]
            omega
          rw [hlt]
          have h0 : r.length - k = 0 := by omega
          rw [h0, List.drop_zero]
        rw [hsplit] at hx
        rcases List.mem_append.mp hx with hx1 | hx2
        · exact hb x hx1
        · exact hdropk x hx2
      · rw [hstep, hc']
    · have h0 : trimLoop th c out = out := by
        rw [trimLoop]
        rw [dif_neg hg]
      refine ⟨?_, ?_, ?_⟩
      · rw [h0, List.take_length]
      · rw [h0]
        simp
      · rw [h0, h0]

/-- C6: `trim_silence` only ever removes trailing samples whose absolute
value is below the threshold (the result is a prefix of the input and every
dropped sample is silent), and it is idempotent: applying it twice with the
same threshold and chunk size equals applying it once. -/
theorem trim_silence_silent_removal_and_idempotent
    (samples : List ℚ) (threshold : ℚ) (chunk : ℕ) :
    trim_silence samples threshold chunk
        = samples.take (trim_silence samples threshold chunk).length
    ∧ (∀ x ∈ samples.drop (trim_silence samples threshold chunk).length, |x| < threshold)
    ∧ trim_silence (trim_silence samples threshold chunk) threshold chunk
        = trim_silence samples threshold chunk := by
  simpa [trim_silence] using trimLoop_props threshold chunk samples.length samples le_rfl

lemma pyTrunc_mono {x y : ℚ} (h : x ≤ y) : pyTrunc x ≤ pyTrunc y := by
  unfold pyTrunc
  split_ifs with hx hy hy
  · exact Int.ceil_le_ceil h
  · calc ⌈x⌉ ≤ 0 := Int.ceil_le.mpr (by exact_mod_cast hx.le)
      _ ≤ ⌊y⌋ := Int.floor_nonneg.mpr (not_lt.mp hy)
  · exact absurd (h.trans_lt hy) hx
  · exact Int.floor_le_floor h

lemma toInt16Sample_mono {x y : ℚ} (h : x ≤ y) : toInt16Sample x ≤ toInt16Sample y := by
  unfold toInt16Sample
  exact pyTrunc_mono
    (mul_le_mul_of_nonneg_right (max_le_max le_rfl (min_le_min le_rfl h)) (by norm_num))

/-- C8: `to_int16` maps each sample by clamping to `[-1, 1]`, multiplying by
32767 and truncating toward zero; the per-sample map is monotone, every
sample above 1 saturates to 32767, and every sample below `-1` saturates to
the single fixed value `-32767`. -/
theorem to_int16_monotone_and_saturates :
    (∀ (xs : List ℚ) (i : ℕ), i < xs.length →
        (to_int16 xs).getD i 0 = pyTrunc (max (-1) (min 1 (xs.getD i 0)) * 32767))
    ∧ (∀ x y : ℚ, x ≤ y → toInt16Sample x ≤ toInt16Sample y)
    ∧ (∀ x : ℚ, 1 < x → toInt16Sample x = 32767)
    ∧ (∀ x : ℚ, x < -1 → toInt16Sample x = -32767) := by
  refine ⟨?_, fun x y h => toInt16Sample_mono h, ?_, ?_⟩
  · intro xs i h
    have h' : i < (to_int16 xs).length := by simpa [to_int16] using h
    rw [getD_lt_eq _ _ h', getD_lt_eq _ _ h]
    simp [to_int16, toInt16Sample]
  · intro x hx
    unfold toInt16Sample pyTrunc
    rw [min_eq_left hx.le, max_eq_right (by norm_num : (-1:ℚ) ≤ 1)]
    have h1 : ((1:ℚ) * 32767) = ((32767:ℤ) : ℚ) := by norm_num
    rw [if_neg (by norm_num), h1, Int.floor_intCast]
  · intro x hx
    unfold toInt16Sample pyTrunc
    rw [min_eq_right (by linarith : x ≤ 1), max_eq_left hx.le]
    have h1 : ((-1:ℚ) * 32767) = ((-32767:ℤ) : ℚ) := by norm_num
    rw [if_pos (by norm_num), h1, Int.ceil_intCast]

/-- Witness for C8 at concrete samples. -/
theorem to_int16_witness :
    (to_int16 [(1:ℚ)/2, 2, -2]).getD 0 0 = pyTrunc (max (-1) (min 1 ((1:ℚ)/2)) * 32767)
    ∧ toInt16Sample ((1:ℚ)/2) ≤ toInt16Sample (2:ℚ)
    ∧ toInt16Sample (2:ℚ) = 32767
    ∧ toInt16Sample (-2:ℚ) = -32767 := by
  refine ⟨?_, ?_, ?_, ?_⟩
  · have := to_int16_monotone_and_saturates.1 [(1:ℚ)/2, 2, -2] 0 (by norm_num)
    simpa using this
  · exact to_int16_monotone_and_saturates.2.1 ((1:ℚ)/2) 2 (by norm_num)
  · exact to_int16_monotone_and_saturates.2.2.1 2 (by norm_num)
  · exact to_int16_monotone_and_saturates.2.2.2 (-2) (by norm_num)

/-- C7 (amended): for every non-empty buffer and every `peak ≥ 0`,
`normalize` succeeds; its output has every absolute sample value at most
`peak`; it is the identity when the input already respects the peak; and an
all-zero buffer comes back unchanged (the zero maximum is replaced by 1.0
rather than dividing by zero). -/
theorem normalize_peak_bound_and_identity (samples : List ℚ) (peak : ℚ)
    (hs : samples ≠ []) (hp : 0 ≤ peak) :
    ∃ out, normalize samples peak = some out
      ∧ (∀ x ∈ out, |x| ≤ peak)
      ∧ ((∀ x ∈ samples, |x| ≤ peak) → out = samples)
      ∧ ((∀ x ∈ samples, x = 0) → out = samples) := by
  obtain ⟨a, l, rfl⟩ := List.exists_cons_of_ne_nil hs
  have hmax : pyMax ((a :: l).map fun s => |s|) = some ((l.map fun s => |s|).foldl max |a|) := by
    simp [pyMax]
  have hm0 : 0 ≤ (l.map fun s => |s|).foldl max |a| :=
    le_trans (abs_nonneg a) (le_foldl_max _ _)
  have hbound : ∀ x ∈ a :: l, |x| ≤ (l.map fun s => |s|).foldl max |a| := by
    intro x hx
    rcases List.mem_cons.mp hx with rfl | hx'
    · exact le_foldl_max _ _
    · exact mem_le_foldl_max (List.mem_map_of_mem _ hx') _
  have hach : ∃ x ∈ a :: l, (l.map fun s => |s|).foldl max |a| = |x| := by
    rcases foldl_max_mem (l.map fun s => |s|) |a| with h | h
    · exact ⟨a, List.mem_cons_self a l, h⟩
    · obtain ⟨x, hx, hfx⟩ := List.mem_map.mp h
      exact ⟨x, List.mem_cons_of_mem a hx, hfx.symm⟩
  set m := (l.map fun s => |s|).foldl max |a| with hmdef
  rw [normalize, hmax]
  dsimp only
  set mx := if m = 0 then 1 else m with hmxdef
  have hmx0 : 0 < mx := by
    rw [hmxdef]
    split_ifs with h
    · norm_num
    · exact lt_of_le_of_ne hm0 (Ne.symm h)
  have hmxge : ∀ x ∈ a :: l, |x| ≤ mx := by
    intro x hx
    rw [hmxdef]
    split_ifs with h
    · calc |x| ≤ m := hbound x hx
        _ = 0 := h
        _ ≤ 1 := by norm_num
    · exact hbound x hx
  by_cases hcase : peak < mx
  · rw [if_pos hcase]
    refine ⟨_, rfl, ?_, ?_, ?_⟩
    · intro x hx
      obtain ⟨s, hsmem, rfl⟩ := List.mem_map.mp hx
      rw [abs_div, abs_mul, abs_of_nonneg hp, abs_of_pos hmx0]
      rw [div_le_iff₀ hmx0]
      calc |s| * peak ≤ mx * peak :=
            mul_le_mul_of_nonneg_right (hmxge s hsmem) hp
        _ = peak * mx := mul_comm _ _
    · intro hle
      have hmzero : m = 0 := by
        by_contra hne
        have hmxm : mx = m := by rw [hmxdef, if_neg hne]
        obtain ⟨x, hx, hfx⟩ := hach
        have : mx ≤ peak := by rw [hmxm, hfx]; exact hle x hx
        exact absurd hcase (not_lt.mpr this)
      have hzero : ∀ x ∈ a :: l, x = 0 := by
        intro x hx
        have := hbound x hx
        rw [hmzero] at this
        exact abs_nonpos_iff.mp this
      calc (a :: l).map (fun s => s * peak / mx)
          = (a :: l).map id := List.map_congr_left (by
            intro x hx
            rw [hzero x hx]
            simp)
        _ = a :: l := List.map_id _
    · intro hzero
      calc (a :: l).map (fun s => s * peak / mx)
          = (a :: l).map id := List.map_congr_left (by
            intro x hx
            rw [hzero x hx]
            simp)
        _ = a :: l := List.map_id _
  · rw [if_neg hcase]
    refine ⟨_, rfl, ?_, fun _ => rfl, fun _ => rfl⟩
    intro x hx
    exact le_trans (hmxge x hx) (not_lt.mp hcase)

/-- Counterexample for C7 as frozen: with the negative peak `-1` the
(non-empty) buffer `[1]` normalizes to `[-1]`, whose maximum absolute value
`1` is not at most the peak. -/
theorem normalize_negative_peak_exceeds :
    normalize [(1:ℚ)] (-1) = some [-1] ∧ ¬ (|(-1:ℚ)| ≤ -1) := by
  constructor
  · rw [normalize]
    norm_num [pyMax]
  · norm_num

/-- Witness for C7 at a concrete buffer and peak. -/
theorem normalize_peak_witness :
    ∃ out, normalize [(1:ℚ)/2] 1 = some out
      ∧ (∀ x ∈ out, |x| ≤ 1)
      ∧ ((∀ x ∈ [(1:ℚ)/2], |x| ≤ 1) → out = [(1:ℚ)/2])
      ∧ ((∀ x ∈ [(1:ℚ)/2], x = 0) → out = [(1:ℚ)/2]) :=
  normalize_peak_bound_and_identity [(1:ℚ)/2] 1 (by simp) (by norm_num)

/-- C3 (amended): the code defines no typed error values at all.  On the
zero-length buffer `normalize` fails with Python's untyped max-of-empty
`ValueError` (embedded as `none`), while `trim_silence` and `fade_out`
accept it and return an ordinary result (the empty buffer, resp. the two
50 ms silence pads); `lowpass` given a negative cutoff silently computes a
result instead of failing fast. -/
theorem empty_buffer_and_invalid_param_behavior :
    (∀ peak : ℚ, normalize [] peak = none)
    ∧ (∀ (th : ℚ) (chunk : ℕ), trim_silence [] th chunk = [])
    ∧ (∀ fade_ms sr : ℕ, fade_out [] fade_ms sr
        = List.replicate (sr * 5 / 100) (0:ℝ) ++ List.replicate (sr * 5 / 100) 0)
    ∧ (∀ (samples : List ℝ) (cutoff : ℚ) (sr poles : ℕ),
        cutoff < 0 → 0 < sr → samples ≠ [] →
        ∃ out, lowpass samples cutoff sr poles = some out) := by
  refine ⟨fun peak => rfl, ?_, ?_, ?_⟩
  · intro th chunk
    rw [trim_silence, trimLoop]
    simp
  · intro fade_ms sr
    simp [fade_out]
  · intro s c sr p hc hsr hs
    rw [lowpass, if_neg (by push_neg; exact ⟨hc.ne, hsr.ne'⟩), if_neg (by simp [hs])]
    exact ⟨_, rfl⟩

/-- Counterexample for C3 as frozen: `trim_silence` on the zero-length
buffer is not rejected with any error; it plainly returns the zero-length
buffer. -/
theorem trim_silence_empty_not_rejected :
    trim_silence ([] : List ℚ) (1/10000) 200 = [] := by
  rw [trim_silence, trimLoop]
  simp

/-- Witness for C3 at concrete parameters. -/
theorem empty_buffer_behavior_witness :
    normalize ([] : List ℚ) (9/10) = none
    ∧ trim_silence ([] : List ℚ) 2 7 = []
    ∧ fade_out ([] : List ℝ) 200 44100
        = List.replicate (44100 * 5 / 100) (0:ℝ) ++ List.replicate (44100 * 5 / 100) 0
    ∧ ∃ out, lowpass [(1:ℝ)] (-1) 44100 3 = some out :=
  ⟨empty_buffer_and_invalid_param_behavior.1 (9/10),
   empty_buffer_and_invalid_param_behavior.2.1 2 7,
   empty_buffer_and_invalid_param_behavior.2.2.1 200 44100,
   empty_buffer_and_invalid_param_behavior.2.2.2 [(1:ℝ)] (-1) 44100 3
     (by norm_num) (by norm_num) (by simp)⟩

/-- C10: with at least one pole, `lowpass` on the zero-length buffer fails
(the first stage writes `out[0]`, raising IndexError; embedded as `none`),
and `lowpass` never returns a zero-length buffer. -/
theorem lowpass_empty_fails_nonempty_out :
    (∀ (cutoff : ℚ) (sr poles : ℕ), 1 ≤ poles → lowpass [] cutoff sr poles = none)
    ∧ (∀ (samples : List ℝ) (cutoff : ℚ) (sr poles : ℕ), 1 ≤ poles →
        ∀ out, lowpass samples cutoff sr poles = some out → out ≠ []) := by
  constructor
  · intro c sr p hp
    rw [lowpass]
    by_cases h1 : c = 0 ∨ sr = 0
    · rw [if_pos h1]
    · rw [if_neg h1, if_pos ⟨hp, rfl⟩]
  · intro s c sr p hp out hout
    rw [lowpass] at hout
    by_cases h1 : c = 0 ∨ sr = 0
    · rw [if_pos h1] at hout
      exact absurd hout (by simp)
    · rw [if_neg h1] at hout
      by_cases h2 : 1 ≤ p ∧ s = []
      · rw [if_pos h2] at hout
        exact absurd hout (by simp)
      · rw [if_neg h2] at hout
        have hs : s ≠ [] := fun hnil => h2 ⟨hp, hnil⟩
        have hX := Option.some.injEq _ _ ▸ hout
        have hXeq : _ = out := Option.some_injective _ hout
        intro hnil
        have hlen : out.length = s.length := by
          rw [← hXeq, length_iterate_lowpassStage]
        rw [hnil] at hlen
        exact hs (List.eq_nil_of_length_eq_zero hlen.symm)

/-- Witness for C10 at concrete parameters. -/
theorem lowpass_empty_witness :
    lowpass ([] : List ℝ) 1 44100 3 = none
    ∧ ∃ out, lowpass [(1:ℝ)] 1 44100 3 = some out ∧ out ≠ [] := by
  constructor
  · exact lowpass_empty_fails_nonempty_out.1 1 44100 3 (by norm_num)
  · have h : ∃ out, lowpass [(1:ℝ)] 1 44100 3 = some out := by
      rw [lowpass, if_neg (by norm_num), if_neg (by simp)]
      exact ⟨_, rfl⟩
    obtain ⟨out, hout⟩ := h
    exact ⟨out, hout,
      lowpass_empty_fails_nonempty_out.2 [(1:ℝ)] 1 44100 3 (by norm_num) out hout⟩

/-- C5: for a non-empty buffer, positive cutoff, positive sample rate and at
least one pole, `lowpass` succeeds with an output of the same length as its
input, and for exactly one pole the output satisfies the one-pole recursion
`out[0] = in[0] * alpha`, `out[i] = out[i-1] + alpha * (in[i] - out[i-1])`
with `alpha = dt / (rc + dt)`, `rc = 1 / (2 * pi * cutoff)`, `dt = 1 / sr`. -/
theorem lowpass_length_and_one_pole_recursion (samples : List ℝ) (cutoff : ℚ)
    (sr poles : ℕ) (hs : samples ≠ []) (hc : 0 < cutoff) (hsr : 0 < sr) (hp : 1 ≤ poles) :
    ∃ out, lowpass samples cutoff sr poles = some out
      ∧ out.length = samples.length
      ∧ (poles = 1 →
          out.getD 0 0 = samples.getD 0 0
              * ((1 / (sr : ℝ)) / (1 / (2 * Real.pi * ((cutoff : ℚ) : ℝ)) + 1 / (sr : ℝ)))
          ∧ ∀ i : ℕ, 1 ≤ i → i < samples.length →
              out.getD i 0 = out.getD (i - 1) 0
                + ((1 / (sr : ℝ)) / (1 / (2 * Real.pi * ((cutoff : ℚ) : ℝ)) + 1 / (sr : ℝ)))
                  * (samples.getD i 0 - out.getD (i - 1) 0)) := by
  have hlp : lowpass samples cutoff sr poles
      = some ((lowpassStage
          ((1 / (sr : ℝ)) / (1 / (2 * Real.pi * ((cutoff : ℚ) : ℝ)) + 1 / (sr : ℝ))))^[poles]
          samples) := by
    rw [lowpass, if_neg (by push_neg; exact ⟨by exact_mod_cast hc.ne', hsr.ne'⟩),
      if_neg (by simp [hs])]
  refine ⟨_, hlp, length_iterate_lowpassStage _ _ _, ?_⟩
  intro hpole
  subst hpole
  rw [Function.iterate_one]
  obtain ⟨b, bs, rfl⟩ := List.exists_cons_of_ne_nil hs
  refine ⟨lowpassStage_getD_zero _ _ _, ?_⟩
  intro i hi1 hilen
  obtain ⟨j, rfl⟩ : ∃ j, i = j + 1 := ⟨i - 1, by omega⟩
  have : j + 1 - 1 = j := by omega
  rw [this]
  exact lowpassStage_getD_succ _ _ j hilen

/-- Witness for C5 at a concrete buffer and parameters. -/
theorem lowpass_one_pole_witness :
    ∃ out, lowpass [(0:ℝ), 1] 1 44100 1 = some out
      ∧ out.length = ([(0:ℝ), 1]).length
      ∧ ((1:ℕ) = 1 →
          out.getD 0 0 = ([(0:ℝ), 1]).getD 0 0
              * ((1 / ((44100:ℕ) : ℝ)) / (1 / (2 * Real.pi * (((1:ℚ) : ℚ) : ℝ)) + 1 / ((44100:ℕ) : ℝ)))
          ∧ ∀ i : ℕ, 1 ≤ i → i < ([(0:ℝ), 1]).length →
              out.getD i 0 = out.getD (i - 1) 0
                + ((1 / ((44100:ℕ) : ℝ)) / (1 / (2 * Real.pi * (((1:ℚ) : ℚ) : ℝ)) + 1 / ((44100:ℕ) : ℝ)))
                  * (([(0:ℝ), 1]).getD i 0 - out.getD (i - 1) 0)) :=
  lowpass_length_and_one_pole_recursion [(0:ℝ), 1] 1 44100 1
    (by simp) (by norm_num) (by norm_num) le_rfl

/-- C2 (amended): every instrument returns a buffer of exactly
`int(sr * duration_ms / 1000)` samples, i.e. the floor (truncation) of
`sr * duration_ms / 1000`, not its rounding. -/
theorem synth_buffer_length_floor (freq volume : ℝ) (duration_ms fade_ms sr : ℕ) :
    (glockenspiel freq duration_ms volume sr).length = sr * duration_ms / 1000
    ∧ (sine_tone freq duration_ms volume fade_ms sr).length = sr * duration_ms / 1000
    ∧ (marimba freq duration_ms volume sr).length = sr * duration_ms / 1000
    ∧ (ambient freq duration_ms volume sr).length = sr * duration_ms / 1000
    ∧ (bowl freq duration_ms volume sr).length = sr * duration_ms / 1000 := by
  refine ⟨?_, ?_, ?_, ?_, ?_⟩ <;>
    simp [glockenspiel, sine_tone, marimba, ambient, bowl]

/-- Counterexample for C2 as frozen: at sample rate 3 and duration 500 ms
the buffer has `int(3 * 500 / 1000) = 1` sample, not
`round(3 * 500 / 1000) = 2`. -/
theorem sine_tone_length_ne_round :
    (sine_tone 1 500 1 60 3).length ≠ (round (((3 * 500 : ℕ) : ℚ) / 1000)).toNat := by
  have h1 : (sine_tone 1 500 1 60 3).length = 1 := by
    simp [sine_tone]
  have h2 : round (((3 * 500 : ℕ) : ℚ) / 1000) = 2 := by
    rw [round_eq]
    have : ((3 * 500 : ℕ) : ℚ) / 1000 + 1 / 2 = 2 := by norm_num
    rw [this]
    exact_mod_cast Int.floor_intCast 2
  rw [h1, h2]
  decide

/-- C1 (amended): the shared release shape `_note_fadeout` is strictly
positive at every in-buffer index — it reaches 0 only at index `frames`,
one past the last sample — and never exceeds 1.  Hence the half-cosine
release does not force the final sample of a note buffer to be 0 (and
`sine_tone` does not apply it at all). -/
theorem note_fadeout_pos_le_one (i frames : ℕ) (h : i < frames) :
    0 < note_fadeout i frames ∧ note_fadeout i frames ≤ 1 := by
  simp only [note_fadeout]
  set fs := frames * 85 / 100 with hfs
  have hfslt : fs < frames := by
    rw [hfs]
    rw [Nat.div_lt_iff_lt_mul (by norm_num : (0:ℕ) < 100)]
    omega
  split_ifs with hif
  · have hdenpos : (0:ℝ) < ((frames - fs : ℕ) : ℝ) := by
      have h0 : 0 < frames - fs := by omega
      exact_mod_cast h0
    have harg0 : 0 ≤ Real.pi * ((i - fs : ℕ) : ℝ) / ((frames - fs : ℕ) : ℝ) := by
      positivity
    have harg1 : Real.pi * ((i - fs : ℕ) : ℝ) / ((frames - fs : ℕ) : ℝ) < Real.pi := by
      rw [div_lt_iff₀ hdenpos]
      have hnum : ((i - fs : ℕ) : ℝ) < ((frames - fs : ℕ) : ℝ) := by
        exact_mod_cast (by omega : i - fs < frames - fs)
      nlinarith [Real.pi_pos]
    have hcos : -1 < Real.cos (Real.pi * ((i - fs : ℕ) : ℝ) / ((frames - fs : ℕ) : ℝ)) := by
      have := Real.cos_lt_cos_of_nonneg_of_le_pi harg0 le_rfl harg1
      rwa [Real.cos_pi] at this
    constructor
    · nlinarith [hcos]
    · nlinarith [Real.cos_le_one (Real.pi * ((i - fs : ℕ) : ℝ) / ((frames - fs : ℕ) : ℝ))]
  · norm_num

/-- Witness for C1's amended statement at a concrete index. -/
theorem note_fadeout_witness : 0 < note_fadeout 0 1 ∧ note_fadeout 0 1 ≤ 1 :=
  note_fadeout_pos_le_one 0 1 (by norm_num)

/-- Counterexample for C1 as frozen: the sine tone at frequency 1 Hz,
duration 1000 ms, volume 1, fade 250 ms, sample rate 4 has 4 samples, and
its last sample is `sin(3*pi/2) = -1`, not 0. -/
theorem sine_tone_last_sample_ne_zero :
    (sine_tone 1 1000 1 250 4).getD 3 0 ≠ 0 := by
  have h3 : (3:ℕ) < (sine_tone 1 1000 1 250 4).length := by
    simp [sine_tone]
  rw [getD_lt_eq _ _ h3]
  simp only [sine_tone]
  rw [List.getElem_ofFn]
  norm_num
  have harg : 2 * Real.pi * ((3:ℝ) / 4) = Real.pi + Real.pi / 2 := by ring
  rw [harg, Real.sin_add_pi_div_two, Real.cos_pi]
  norm_num

/-- For `j < L`, a zero-filled buffer reads 0 at `j`. -/
lemma getD_replicate_zero (L j : ℕ) (h : j < L) :
    (List.replicate L (0:ℝ)).getD j 0 = 0 := by
  rw [getD_lt_eq _ _ (by simpa using h)]
  exact List.getElem_replicate _ _

/-- C4 (amended): for a positive sample rate, positive reference tap,
non-empty delay list and non-negative tail, `reverb` returns a buffer of
length `len(input) + int(sr * max(delays) / 1000) + int(sr * tail_s)` (delay
frames are truncated, as Python `int()`, not rounded), and every output
sample `j` equals the dry input at `j` (0 past the input end) plus, for each
tap with delay frames `d = int(sr * d_ms / 1000)` such that `d ≤ j`, the
input at `j - d` scaled by `decay ^ (d_ms / delays[0])` — so a tap at delay
`d` never affects samples before index `d`. -/
theorem reverb_characterization (samples : List ℝ) (sr : ℕ) (decay : ℝ)
    (d0 : ℕ) (rest : List ℕ) (tail_s : ℚ)
    (_hsr : 0 < sr) (_hd0 : 0 < d0) (_htail : 0 ≤ tail_s) :
    (reverb samples sr decay (d0 :: rest) tail_s).length
        = samples.length + sr * ((d0 :: rest).foldl max 0) / 1000 + (⌊(sr : ℚ) * tail_s⌋).toNat
    ∧ ∀ j < (reverb samples sr decay (d0 :: rest) tail_s).length,
        (reverb samples sr decay (d0 :: rest) tail_s).getD j 0
          = samples.getD j 0
            + ((d0 :: rest).map fun d_ms =>
                if sr * d_ms / 1000 ≤ j then
                  samples.getD (j - sr * d_ms / 1000) 0 * decay ^ ((d_ms : ℝ) / (d0 : ℝ))
                else 0).sum := by
  have hrev : reverb samples sr decay (d0 :: rest) tail_s
      = (d0 :: rest).foldl
          (fun acc d_ms =>
            addInto acc (sr * d_ms / 1000)
              (samples.map fun s => s * decay ^ ((d_ms : ℝ) / (d0 : ℝ))))
          (addInto
            (List.replicate
              (samples.length + sr * ((d0 :: rest).foldl max 0) / 1000
                + (⌊(sr : ℚ) * tail_s⌋).toNat) 0)
            0 samples) := by
    rw [reverb]
    simp only [List.headD_cons]
  have hlen : (reverb samples sr decay (d0 :: rest) tail_s).length
      = samples.length + sr * ((d0 :: rest).foldl max 0) / 1000 + (⌊(sr : ℚ) * tail_s⌋).toNat := by
    rw [hrev,
      length_foldl_addInto (fun d_ms => sr * d_ms / 1000)
        (fun d_ms => samples.map fun s => s * decay ^ ((d_ms : ℝ) / (d0 : ℝ))),
      length_addInto, List.length_replicate]
  refine ⟨hlen, ?_⟩
  intro j hj
  rw [hlen] at hj
  have hjL : j < (List.replicate
      (samples.length + sr * ((d0 :: rest).foldl max 0) / 1000
        + (⌊(sr : ℚ) * tail_s⌋).toNat) (0:ℝ)).length := by
    simpa using hj
  have hjA : j < (addInto
      (List.replicate
        (samples.length + sr * ((d0 :: rest).foldl max 0) / 1000
          + (⌊(sr : ℚ) * tail_s⌋).toNat) 0) 0 samples).length := by
    rwa [length_addInto]
  rw [hrev,
    getD_foldl_addInto (fun d_ms => sr * d_ms / 1000)
      (fun d_ms => samples.map fun s => s * decay ^ ((d_ms : ℝ) / (d0 : ℝ)))
      _ _ hjA,
    getD_addInto _ _ _ hjL, getD_replicate_zero _ _ (by simpa using hjL)]
  rw [if_pos (Nat.zero_le j), Nat.sub_zero, zero_add]
  congr 1
  refine congrArg List.sum (List.map_congr_left ?_)
  intro d_ms _
  by_cases hcond : sr * d_ms / 1000 ≤ j
  · rw [if_pos hcond, if_pos hcond, getD_map_mul]
  · rw [if_neg hcond, if_neg hcond]

/-- Counterexample for C4 as frozen: with one input sample, sample rate 1,
a single 500 ms tap and no tail, the output has
`1 + int(1 * 500 / 1000) + 0 = 1` sample, not the claimed
`1 + round(1 * 500 / 1000) + 0 = 2`. -/
theorem reverb_length_ne_round_formula :
    (reverb [(1:ℝ)] 1 0 [500] 0).length
      ≠ 1 + (round (((1 * 500 : ℕ) : ℚ) / 1000)).toNat + (⌊(1:ℚ) * 0⌋).toNat := by
  have h1 : (reverb [(1:ℝ)] 1 0 [500] 0).length = 1 := by
    rw [reverb]
    rw [length_foldl_addInto (fun d_ms => 1 * d_ms / 1000)
      (fun d_ms => [(1:ℝ)].map fun s => s * (0:ℝ) ^ ((d_ms : ℝ) / (([500].headD 0 : ℕ) : ℝ))),
      length_addInto, List.length_replicate]
    norm_num
  have h2 : round (((1 * 500 : ℕ) : ℚ) / 1000) = 1 := by
    rw [round_eq]
    have : ((1 * 500 : ℕ) : ℚ) / 1000 + 1 / 2 = 1 := by norm_num
    rw [this]
    exact_mod_cast Int.floor_intCast 1
  have h3 : (⌊(1:ℚ) * 0⌋).toNat = 0 := by
    norm_num
  rw [h1, h2, h3]
  decide

/-- Witness for C4 at a concrete buffer, tap list and parameters. -/
theorem reverb_characterization_witness :
    (reverb [(1:ℝ)] 1 2 [1000] 0).length
        = ([(1:ℝ)]).length + 1 * (([1000] : List ℕ).foldl max 0) / 1000 + (⌊(1:ℚ) * 0⌋).toNat
    ∧ ∀ j < (reverb [(1:ℝ)] 1 2 [1000] 0).length,
        (reverb [(1:ℝ)] 1 2 [1000] 0).getD j 0
          = ([(1:ℝ)]).getD j 0
            + (([1000] : List ℕ).map fun d_ms =>
                if 1 * d_ms / 1000 ≤ j then
                  ([(1:ℝ)]).getD (j - 1 * d_ms / 1000) 0 * (2:ℝ) ^ ((d_ms : ℝ) / ((1000:ℕ) : ℝ))
                else 0).sum :=
  reverb_characterization [(1:ℝ)] 1 2 1000 [] 0 (by norm_num) (by norm_num) (by norm_num)

/-- C9: chord mixing synthesizes each requested frequency at volume
`volume / len(freqs)`, produces a buffer whose length is the maximum voice
length, never shorter than any individual voice, and whose every sample is
the sample-wise sum of the voices (0 past a shorter voice's end). -/
theorem gen_chord_mix_spec (synth : ℝ → ℕ → ℝ → ℕ → List ℝ)
    (freqs : List ℝ) (duration_ms : ℕ) (volume : ℝ) (sr : ℕ)
    (voices : List (List ℝ)) (_hne : freqs ≠ [])
    (hv : voices = freqs.map fun f => synth f duration_ms (volume / ((freqs.length : ℕ) : ℝ)) sr) :
    (gen_chord_mixed synth freqs duration_ms volume sr).length
        = (voices.map List.length).foldl max 0
    ∧ (∀ v ∈ voices, v.length ≤ (gen_chord_mixed synth freqs duration_ms volume sr).length)
    ∧ ∀ j < (gen_chord_mixed synth freqs duration_ms volume sr).length,
        (gen_chord_mixed synth freqs duration_ms volume sr).getD j 0
          = (voices.map fun v => v.getD j 0).sum := by
  subst hv
  have hmix : gen_chord_mixed synth freqs duration_ms volume sr
      = (freqs.map fun f => synth f duration_ms (volume / ((freqs.length : ℕ) : ℝ)) sr).foldl
          (fun acc v => addInto acc 0 v)
          (List.replicate
            (((freqs.map fun f => synth f duration_ms (volume / ((freqs.length : ℕ) : ℝ)) sr).map
              List.length).foldl max 0) 0) := by
    rw [gen_chord_mixed]
  have hlen : (gen_chord_mixed synth freqs duration_ms volume sr).length
      = (((freqs.map fun f =>
          synth f duration_ms (volume / ((freqs.length : ℕ) : ℝ)) sr).map List.length).foldl max 0) := by
    rw [hmix, length_foldl_addInto (fun _ => 0) (fun v => v), List.length_replicate]
  refine ⟨hlen, ?_, ?_⟩
  · intro v hvmem
    rw [hlen]
    exact mem_le_foldl_max (List.mem_map_of_mem List.length hvmem) 0
  · intro j hj
    rw [hlen] at hj
    have hjL : j < (List.replicate
        (((freqs.map fun f => synth f duration_ms (volume / ((freqs.length : ℕ) : ℝ)) sr).map
          List.length).foldl max 0) (0:ℝ)).length := by
      simpa using hj
    rw [hmix, getD_foldl_addInto (fun _ => 0) (fun v => v) _ _ hjL,
      getD_replicate_zero _ _ (by simpa using hjL), zero_add]
    refine congrArg List.sum (List.map_congr_left ?_)
    intro v _
    rw [if_pos (Nat.zero_le j), Nat.sub_zero]

/-- Witness for C9 with a concrete synthesizer function and chord. -/
theorem gen_chord_mix_witness :
    (gen_chord_mixed (fun _ _ _ _ => [(1:ℝ)]) [2] 800 3 44100).length
        = (([[(1:ℝ)]].map List.length).foldl max 0)
    ∧ (∀ v ∈ [[(1:ℝ)]], v.length ≤ (gen_chord_mixed (fun _ _ _ _ => [(1:ℝ)]) [2] 800 3 44100).length)
    ∧ ∀ j < (gen_chord_mixed (fun _ _ _ _ => [(1:ℝ)]) [2] 800 3 44100).length,
        (gen_chord_mixed (fun _ _ _ _ => [(1:ℝ)]) [2] 800 3 44100).getD j 0
          = ([[(1:ℝ)]].map fun v => v.getD j 0).sum :=
  gen_chord_mix_spec (fun _ _ _ _ => [(1:ℝ)]) [2] 800 3 44100 [[(1:ℝ)]] (by simp) (by simp)

end GentlePong
